import Mathlib

/-!
Verification of the InFileNameWeTrust codec, framing, chunking and storage
pipeline.  All definitions are shallow embeddings of the Python sources:
byte strings and filename strings are `List Nat` (byte values, resp. Unicode
code points), machine integers are `Nat` with explicit `% 2 ^ w`, and
fallible code returns `Option`.
-/

/-- Embedding of `utils.is_valid_bmp_char` (src/infilenamewetrust/utils.py, lines 3-41):
an if-chain of early `return False` tests on the code point, including the
extra Azure-reserved ranges. -/
def utils_is_valid_bmp_char (cp : Nat) : Bool :=
  if 0xFFFF < cp then false
  else if cp < 0x20 ∨ cp = 0x7F then false
  else if 0xD800 ≤ cp ∧ cp ≤ 0xDFFF then false
  else if 0x0080 ≤ cp ∧ cp ≤ 0x00A0 then false
  else if 0xFE00 ≤ cp ∧ cp ≤ 0xFE0F then false
  else if 0xFFF0 ≤ cp ∧ cp ≤ 0xFFFC then false
  else if 0xFD9E ≤ cp ∧ cp ≤ 0xFDFA then false
  else if 0xFF9C ≤ cp ∧ cp ≤ 0xFFFD then false
  else if cp = 0x00AD ∨ cp = 0xFEFF ∨ cp = 0xFFA0 then false
  else if cp = 0x5C ∨ cp = 0x2F ∨ cp = 0x3A ∨ cp = 0x2A ∨ cp = 0x3F ∨ cp = 0x22
      ∨ cp = 0x3C ∨ cp = 0x3E ∨ cp = 0x7C then false
  else if cp = 0xFFFE ∨ cp = 0xFFFF then false
  else if cp = 0x20 ∨ cp = 0x2E then false
  else true

/-- Embedding of `is_valid_bmp_char` as defined in handler.py lines 15-41 (identical to
`InFileNameStorage._is_valid_bmp_char` in legacy/storage.py lines 49-63):
the same chain as utils.py but without the Azure-reserved ranges. -/
def handler_is_valid_bmp_char (cp : Nat) : Bool :=
  if 0xFFFF < cp then false
  else if cp < 0x20 ∨ cp = 0x7F then false
  else if 0xD800 ≤ cp ∧ cp ≤ 0xDFFF then false
  else if cp = 0x5C ∨ cp = 0x2F ∨ cp = 0x3A ∨ cp = 0x2A ∨ cp = 0x3F ∨ cp = 0x22
      ∨ cp = 0x3C ∨ cp = 0x3E ∨ cp = 0x7C then false
  else if cp = 0xFFFE ∨ cp = 0xFFFF then false
  else if cp = 0x20 ∨ cp = 0x2E then false
  else true

/-- Embedding of `build_bmp_singleunit_alphabet` from handler.py lines 43-56 and
legacy/storage.py lines 65-71: all code points `0x0000 .. 0xFFFF` passing
`is_valid_bmp_char`, in increasing order.  Characters are modelled by their
code points. -/
def handler_alphabet : List Nat :=
  (List.range 0x10000).filter handler_is_valid_bmp_char

/-- Embedding of `build_bmp_singleunit_alphabet` from utils.py lines 43-56 (used by
`InFileNameEncoder` in encoder.py). -/
def utils_alphabet : List Nat :=
  (List.range 0x10000).filter utils_is_valid_bmp_char

/-- The `while (1 << chunk_bits) <= base_size: chunk_bits += 1` loop of
handler.py lines 85-89 / encoder.py lines 25-28, with explicit fuel (the
loop body runs at most `A + 1` times because `2 ^ (A + 1) > A`).  Returns
the first `k` with `2 ^ k > A`. -/
def chunk_bits_loop (A : Nat) : Nat → Nat → Nat
  | 0, k => k
  | fuel + 1, k => if 2 ^ k ≤ A then chunk_bits_loop A fuel (k + 1) else k

/-- Value of `chunk_bits` as computed by handler.py lines 85-89: run the loop from 0
and subtract one. -/
def chunk_bits_of (A : Nat) : Nat :=
  chunk_bits_loop A (A + 1) 0 - 1

/-- The `while bits_in_buffer >= chunk_bits` extraction loop shared by
`_encode_streaming` (legacy/storage.py lines 95-98, with `chunk_bits`-wide
output symbols) and `_decode_streaming` (lines 127-130, with 8-bit output
bytes).  `buf >> bits` is `buf / 2 ^ bits` and `& mask` is `% 2 ^ outw`.
Fuel-indexed so that it is structurally recursive; any `fuel ≥ bits`
suffices. -/
def drain_loop (outw buf : Nat) : Nat → Nat → List Nat × Nat
  | 0, bits => ([], bits)
  | fuel + 1, bits =>
    if outw ≤ bits then
      let bits' := bits - outw
      let r := drain_loop outw buf fuel bits'
      (buf / 2 ^ bits' % 2 ^ outw :: r.1, r.2)
    else ([], bits)

/-- The streaming repacker common to `_encode_streaming` (with
`inw = 8, outw = chunk_bits`) and `_decode_streaming` (with
`inw = chunk_bits, outw = 8`), legacy/storage.py lines 85-105 and 115-138:
shift each `inw`-wide input value into the accumulator
(`(bit_buffer << inw) | v` is `buf * 2 ^ inw + v` for `v < 2 ^ inw`),
drain all full `outw`-bit symbols from the top, and after the last input
emit the leftover bits (`bit_buffer & ((1 << bits) - 1)`, i.e.
`buf % 2 ^ bits`) as one final partial symbol. -/
def repack_core (inw outw : Nat) : List Nat → Nat → Nat → List Nat
  | [], buf, bits => if 0 < bits then [buf % 2 ^ bits] else []
  | v :: rest, buf, bits =>
    let buf' := buf * 2 ^ inw + v
    let d := drain_loop outw buf' (bits + inw) (bits + inw)
    d.1 ++ repack_core inw outw rest buf' d.2

/-- Repack a stream of `inw`-bit values into a stream of `outw`-bit values,
starting from the empty accumulator. -/
def repack (inw outw : Nat) (vals : List Nat) : List Nat :=
  repack_core inw outw vals 0 0

/-- Big-endian value of a list of `w`-bit values, with initial accumulator
`a` (the running `bit_buffer`). -/
def val_from (w : Nat) (a : Nat) (vals : List Nat) : Nat :=
  vals.foldl (fun x v => x * 2 ^ w + v) a

/-- Closed-form description of the repacked stream: the bits of `N`
(a `T`-bit big-endian stream) cut into `outw`-bit symbols from the top,
with the final `T % outw` leftover bits (if any) emitted low-aligned as one
partial symbol. -/
def stream_syms (outw N T : Nat) : List Nat :=
  ((List.range (T / outw)).map fun j => N / 2 ^ (T - (j + 1) * outw) % 2 ^ outw)
    ++ (if T % outw = 0 then [] else [N % 2 ^ (T % outw)])

/-- Embedding of `_encode_streaming` (legacy/storage.py lines 76-105): repack the bytes
into `chunk_bits`-wide indices and map each index to its character in
`sub_alphabet = alphabet[:1 << chunk_bits]` (line 83). -/
def encode_streaming (b : Nat) (alph : List Nat) (data : List Nat) : List Nat :=
  (repack 8 b data).map fun i => (alph.take (2 ^ b)).getD i 0

/-- The `char_to_value` reverse map of legacy/storage.py lines 38-41 (and
`reverse_map` of handler.py lines 92-97): a character maps to its index iff
it occurs among the first `2 ^ chunk_bits` alphabet entries. -/
def char_to_value (b : Nat) (alph : List Nat) (ch : Nat) : Option Nat :=
  (alph.take (2 ^ b)).findIdx? (fun c => c = ch)

/-- The per-character lookup loop of `_decode_streaming` (legacy/storage.py
lines 119-122): each character is looked up in the reverse map and a missing
character raises (`none`). -/
def chars_to_vals (lookup : Nat → Option Nat) : List Nat → Option (List Nat)
  | [] => some []
  | c :: rest =>
    match lookup c with
    | none => none
    | some v => (chars_to_vals lookup rest).map (fun vs => v :: vs)

/-- Embedding of `_decode_streaming` (legacy/storage.py lines 110-138): look every
character up in the reverse map (failing on an unknown character), then
repack the `chunk_bits`-wide values into bytes. -/
def decode_streaming (b : Nat) (alph : List Nat) (chars : List Nat) : Option (List Nat) :=
  (chars_to_vals (char_to_value b alph) chars).map (repack b 8)

/-- Modelled from the spec: the compiled extension `cython_fastencode.pyx`
is not present under src/ (only setup.py builds it), so its `encode` is
modelled from spec section 4.2, whose bit-accumulator description coincides
with `_encode_streaming` in legacy/storage.py. -/
def cython_encode (b : Nat) (alph : List Nat) (data : List Nat) : List Nat :=
  encode_streaming b alph data

/-- Modelled from the spec: `cython_fastencode.decode`, modelled from spec
section 4.2; coincides with `_decode_streaming` in legacy/storage.py. -/
def cython_decode (b : Nat) (alph : List Nat) (chars : List Nat) : Option (List Nat) :=
  decode_streaming b alph chars

/-- Embedding of `seg_len.to_bytes(4, byteorder="big")` (handler.py line 177). -/
def be32 (n : Nat) : List Nat :=
  [n / 2 ^ 24 % 256, n / 2 ^ 16 % 256, n / 2 ^ 8 % 256, n % 256]

/-- Embedding of `int.from_bytes(bytes, byteorder="big")` (handler.py line 263). -/
def int_from_bytes_be (l : List Nat) : Nat :=
  l.foldl (fun a x => a * 256 + x) 0

/-- The per-segment header handling of handler.py lines 258-265 (and
encoder.py lines 75-79): if the decoded data holds fewer than 4 bytes the
segment is skipped (`logger.error` followed by `continue`, contributing
nothing); otherwise the first 4 bytes are read as the declared length and
`dec_data[4 : 4 + expected]` is contributed, which silently truncates to
whatever is available. -/
def unframe_segment (dec : List Nat) : List Nat :=
  if dec.length < 4 then [] else (dec.drop 4).take (int_from_bytes_be (dec.take 4))

/-- The chunking comprehension
`[encoded[i:i+chunk_size] for i in range(0, len(encoded), chunk_size)]`
together with its `enumerate` ordinals (handler.py lines 188-191,
local_storage.py line 15): chunk `i` is `encoded[i*cs : i*cs + cs]` and
`range(0, L, cs)` has `ceil(L / cs)` elements (`cs > 0`). -/
def split_chunks (s : List Nat) (cs : Nat) : List (Nat × List Nat) :=
  (List.range ((s.length + cs - 1) / cs)).map fun i => (i, (s.drop (i * cs)).take cs)

/-- Decimal digits of `n`, least significant first, by repeated division
(empty for `n = 0`); fuel-indexed, any `fuel > n` suffices. -/
def decimal_digits_rev : Nat → Nat → List Nat
  | 0, _ => []
  | fuel + 1, n => if n = 0 then [] else n % 10 :: decimal_digits_rev fuel (n / 10)

/-- The ASCII decimal representation of `n` (code points `0x30 .. 0x39`),
most significant digit first; `[]` for `n = 0` (the zero-padding below
restores the Python rendering of 0). -/
def decimal_repr (n : Nat) : List Nat :=
  ((decimal_digits_rev (n + 1) n).reverse).map (fun d => 0x30 + d)

/-- The Python format `f"{idx:03d}"`: left-pad the decimal representation
with ASCII zeros to a minimum width of 3; wider numbers are not cut. -/
def format03 (n : Nat) : List Nat :=
  List.replicate (3 - (decimal_repr n).length) 0x30 ++ decimal_repr n

/-- The chunk filename `f"{idx:03d}_{chunk}"` (local_storage.py line 17,
handler.py line 195): padded ordinal, underscore (0x5F), raw chunk text. -/
def chunk_filename (idx : Nat) (chunk : List Nat) : List Nat :=
  format03 idx ++ 0x5F :: chunk

/-- Embedding of `name.split("_", 1)`: cut at the first underscore, `none` when the name
has no underscore. -/
def split_first_underscore : List Nat → Option (List Nat × List Nat)
  | [] => none
  | c :: rest =>
    if c = 0x5F then some ([], rest)
    else (split_first_underscore rest).map (fun p => (c :: p.1, p.2))

/-- Embedding of `int(...)` as used on the generated name prefixes: a non-empty all-digit
string parsed in base 10, `none` otherwise (Python raises `ValueError`, and
the callers skip the file). -/
def parse_nat_digits (l : List Nat) : Option Nat :=
  if l ≠ [] ∧ l.all (fun c => decide (0x30 ≤ c ∧ c ≤ 0x39)) then
    some (l.foldl (fun a c => a * 10 + (c - 0x30)) 0)
  else none

/-- The filename parsing of local_storage.py lines 36-43 and handler.py
lines 238-246: split at the first underscore, parse the prefix as an
integer, skip the file when either step fails. -/
def parse_chunk_filename (name : List Nat) : Option (Nat × List Nat) :=
  match split_first_underscore name with
  | none => none
  | some (pre, rest) =>
    match parse_nat_digits pre with
    | none => none
    | some idx => some (idx, rest)

/-- Embedding of `chunk_files.sort(key=lambda x: x[0])` (local_storage.py line 45,
handler.py line 247): stable sort by ordinal, modelled by insertion sort. -/
def sort_by_ordinal (entries : List (Nat × List Nat)) : List (Nat × List Nat) :=
  entries.insertionSort (fun a b => a.1 ≤ b.1)

/-- The reassembly `"".join(chunk for idx, chunk in sorted_chunk_files)`
(local_storage.py lines 44-47, handler.py lines 247-253): sort the parsed
chunks by ordinal and concatenate — there is no contiguity check. -/
def reassemble (entries : List (Nat × List Nat)) : List Nat :=
  ((sort_by_ordinal entries).map Prod.snd).flatten

/-- Embedding of `LocalStorageHandler.store_segment` (local_storage.py lines 11-21),
restricted to the names it creates inside the part folder. -/
def store_segment_names (encoded : List Nat) (chunk_size : Nat) : List (List Nat) :=
  (split_chunks encoded chunk_size).map fun q => chunk_filename q.1 q.2

/-- The per-part reassembly of `retrieve_segments` (local_storage.py lines
32-47): parse every file name (skipping unparseable ones), sort by the
parsed ordinal and concatenate. -/
def retrieve_segment_str (names : List (List Nat)) : List Nat :=
  reassemble (names.filterMap parse_chunk_filename)

/-- The compressed payload slicing of handler.py lines 159-168: segments of
at most `segment_size` bytes, in order. -/
def segment_bytes (data : List Nat) (segment_size : Nat) : List (List Nat) :=
  (List.range ((data.length + segment_size - 1) / segment_size)).map
    fun i => (data.drop (i * segment_size)).take segment_size

/-- Embedding of `InFileNameStorageCython.encode_file_to_filenames` (handler.py lines
131-202) after zlib compression (zlib is an external collaborator): slice
into segments, prefix each with the 4-byte big-endian length header, encode,
chunk, and name every chunk; segment indices are 1-based. -/
def encode_file_to_filenames (b : Nat) (alph : List Nat)
    (segment_size chunk_size : Nat) (compressed : List Nat) :
    List (Nat × List (List Nat)) :=
  ((segment_bytes compressed segment_size).enum).map fun p =>
    (p.1 + 1,
      (split_chunks (cython_encode b alph (be32 p.2.length ++ p.2)) chunk_size).map
        fun q => chunk_filename q.1 q.2)

/-- One iteration of the decode loop of handler.py lines 233-273: parse and
reassemble the part's chunk files (an empty part is skipped with a warning),
decode, and apply the header trim.  A character missing from the reverse map
raises, aborting the whole decode. -/
def decode_one_part (b : Nat) (alph : List Nat) (names : List (List Nat)) :
    Option (List Nat) :=
  let entries := names.filterMap parse_chunk_filename
  if entries = [] then some []
  else
    match cython_decode b alph (reassemble entries) with
    | none => none
    | some dec => some (unframe_segment dec)

/-- The decode loop over the sorted part folders, accumulating
`accumulated_compressed` (handler.py lines 229-275). -/
def decode_parts_loop (b : Nat) (alph : List Nat) :
    List (Nat × List (List Nat)) → Option (List Nat)
  | [] => some []
  | p :: rest =>
    match decode_one_part b alph p.2 with
    | none => none
    | some seg => (decode_parts_loop b alph rest).map (fun acc => seg ++ acc)

/-- Embedding of `InFileNameStorageCython.decode_filenames_to_file` (handler.py lines
204-282) up to the final external zlib decompression: raises when no part
folders are found, otherwise processes the parts in ascending index order
and returns the accumulated compressed bytes. -/
def decode_filenames_to_file (b : Nat) (alph : List Nat)
    (parts : List (Nat × List (List Nat))) : Option (List Nat) :=
  if parts = [] then none
  else decode_parts_loop b alph (parts.insertionSort (fun x y => x.1 ≤ y.1))

/-- The exclusion rules listed in spec section 4.1, transcribed from the
spec's words (for comparison with the builders above): beyond the BMP,
control or delete, surrogate, reserved punctuation, BMP noncharacter,
space or period. -/
def spec_listed_exclusion (cp : Nat) : Bool :=
  if 0xFFFF < cp then true
  else if cp < 0x20 then true
  else if cp = 0x7F then true
  else if 0xD800 ≤ cp ∧ cp ≤ 0xDFFF then true
  else if cp = 0x5C ∨ cp = 0x2F ∨ cp = 0x3A ∨ cp = 0x2A ∨ cp = 0x3F ∨ cp = 0x22
      ∨ cp = 0x3C ∨ cp = 0x3E ∨ cp = 0x7C then true
  else if cp = 0xFFFE ∨ cp = 0xFFFF then true
  else if cp = 0x20 ∨ cp = 0x2E then true
  else false

/-- The additional exclusions present only in utils.py (the lines marked
`# Azure` plus `0x00AD, 0xFEFF, 0xFFA0`). -/
def utils_azure_exclusion (cp : Nat) : Bool :=
  if 0x0080 ≤ cp ∧ cp ≤ 0x00A0 then true
  else if 0xFE00 ≤ cp ∧ cp ≤ 0xFE0F then true
  else if 0xFFF0 ≤ cp ∧ cp ≤ 0xFFFC then true
  else if 0xFD9E ≤ cp ∧ cp ≤ 0xFDFA then true
  else if 0xFF9C ≤ cp ∧ cp ≤ 0xFFFD then true
  else if cp = 0x00AD ∨ cp = 0xFEFF ∨ cp = 0xFFA0 then true
  else false

/-- handler.py's `is_valid_bmp_char` keeps exactly the code points that the
spec's listed exclusion rules keep. -/
theorem handler_valid_eq_rules (cp : Nat) :
    handler_is_valid_bmp_char cp = !spec_listed_exclusion cp := by
  unfold handler_is_valid_bmp_char spec_listed_exclusion
  split_ifs <;> first | rfl | (exfalso; omega)

/-- Every code point in the block `0x100 .. 0xD7FF` is kept by handler.py's
validity test. -/
theorem handler_valid_block (cp : Nat) (hl : 0x100 ≤ cp) (hr : cp ≤ 0xD7FF) :
    handler_is_valid_bmp_char cp = true := by
  unfold handler_is_valid_bmp_char
  split_ifs <;> first | rfl | (exfalso; omega)

/-- Every code point in the block `0x100 .. 0xD7FF` is kept by utils.py's
validity test (the Azure ranges all lie outside this block). -/
theorem utils_valid_block (cp : Nat) (hl : 0x100 ≤ cp) (hr : cp ≤ 0xD7FF) :
    utils_is_valid_bmp_char cp = true := by
  unfold utils_is_valid_bmp_char
  iterate 12 rw [if_neg (by omega)]

/-- Splitting `range 0x10000` around the block `0x100 .. 0xD7FF`. -/
theorem range_split_d700 :
    List.range 0x10000
      = List.range' 0 0x100 ++ List.range' 0x100 0xD700 ++ List.range' 0xD800 0x2800 := by
  rw [List.range_eq_range']
  have h1 := List.range'_append 0 0x100 0xFF00 1
  have h2 := List.range'_append 0x100 0xD700 0x2800 1
  norm_num at h1 h2
  rw [← h1, ← h2, List.append_assoc]

/-- The filtered middle block survives whole, giving a lower bound on the
handler alphabet size. -/
theorem handler_alphabet_length_lb : 0xD700 ≤ handler_alphabet.length := by
  unfold handler_alphabet
  rw [range_split_d700, List.filter_append, List.filter_append]
  have hmid : (List.range' 0x100 0xD700).filter handler_is_valid_bmp_char
      = List.range' 0x100 0xD700 := by
    rw [List.filter_eq_self]
    intro a ha
    rw [List.mem_range'_1] at ha
    exact handler_valid_block a ha.1 (by omega)
  rw [hmid]
  simp only [List.length_append, List.length_range']
  omega

/-- The same lower bound for the utils alphabet. -/
theorem utils_alphabet_length_lb : 0xD700 ≤ utils_alphabet.length := by
  unfold utils_alphabet
  rw [range_split_d700, List.filter_append, List.filter_append]
  have hmid : (List.range' 0x100 0xD700).filter utils_is_valid_bmp_char
      = List.range' 0x100 0xD700 := by
    rw [List.filter_eq_self]
    intro a ha
    rw [List.mem_range'_1] at ha
    exact utils_valid_block a ha.1 (by omega)
  rw [hmid]
  simp only [List.length_append, List.length_range']
  omega

/-- The handler alphabet is a strict subset of the BMP: code point 0 is
dropped. -/
theorem handler_alphabet_length_ub : handler_alphabet.length < 0x10000 := by
  unfold handler_alphabet
  have h := List.length_filter_lt_length_iff_exists
    (p := handler_is_valid_bmp_char) (l := List.range 0x10000)
  rw [List.length_range] at h
  exact h.mpr ⟨0, by simp [List.mem_range], by decide⟩

theorem utils_alphabet_length_ub : utils_alphabet.length < 0x10000 := by
  unfold utils_alphabet
  have h := List.length_filter_lt_length_iff_exists
    (p := utils_is_valid_bmp_char) (l := List.range 0x10000)
  rw [List.length_range] at h
  exact h.mpr ⟨0, by simp [List.mem_range], by decide⟩

/-- The fuelled `chunk_bits` loop returns the first `k ≥ start` with
`2 ^ k > A`, provided the fuel suffices. -/
theorem chunk_bits_loop_spec (A : Nat) :
    ∀ fuel k, A < 2 ^ (k + fuel) →
      A < 2 ^ chunk_bits_loop A fuel k ∧ k ≤ chunk_bits_loop A fuel k ∧
        ∀ j, k ≤ j → j < chunk_bits_loop A fuel k → 2 ^ j ≤ A := by
  intro fuel
  induction fuel with
  | zero =>
    intro k hk
    simp only [chunk_bits_loop]
    exact ⟨by simpa using hk, le_refl k, fun j h1 h2 => absurd (lt_of_le_of_lt h1 h2) (lt_irrefl k).elim⟩
  | succ n ih =>
    intro k hk
    simp only [chunk_bits_loop]
    by_cases h : 2 ^ k ≤ A
    · rw [if_pos h]
      have hk' : A < 2 ^ (k + 1 + n) := by
        have : k + 1 + n = k + (n + 1) := by omega
        rw [this]; exact hk
      obtain ⟨ha, hb, hc⟩ := ih (k + 1) hk'
      refine ⟨ha, by omega, fun j hj1 hj2 => ?_⟩
      rcases Nat.eq_or_lt_of_le hj1 with rfl | hlt
      · exact h
      · exact hc j hlt hj2
    · rw [if_neg h]
      exact ⟨by omega, le_refl k, fun j h1 h2 => by omega⟩

/-- For `A ≥ 1`, `chunk_bits_of A` is the exponent of the largest power of
two that is at most `A`. -/
theorem chunk_bits_of_bounds (A : Nat) (hA : 0 < A) :
    2 ^ chunk_bits_of A ≤ A ∧ A < 2 ^ (chunk_bits_of A + 1) := by
  have hfuel : A < 2 ^ (0 + (A + 1)) := by
    calc A < 2 ^ A := Nat.lt_two_pow A
    _ ≤ 2 ^ (0 + (A + 1)) := Nat.pow_le_pow_right (by omega) (by omega)
  obtain ⟨ha, _, hc⟩ := chunk_bits_loop_spec A (A + 1) 0 hfuel
  set r := chunk_bits_loop A (A + 1) 0 with hr
  have hr1 : 1 ≤ r := by
    by_contra h
    push_neg at h
    interval_cases r
    · simp at ha; omega
  unfold chunk_bits_of
  rw [← hr]
  constructor
  · have := hc (r - 1) (by omega) (by omega)
    exact this
  · have : r - 1 + 1 = r := by omega
    rw [this]
    exact ha

/-- With `2 ^ 15 ≤ A < 2 ^ 16` the computed symbol width is 15. -/
theorem chunk_bits_of_eq_15 (A : Nat) (h1 : 2 ^ 15 ≤ A) (h2 : A < 2 ^ 16) :
    chunk_bits_of A = 15 := by
  obtain ⟨ha, hb⟩ := chunk_bits_of_bounds A (by omega)
  set c := chunk_bits_of A with hc
  have hlt : 2 ^ c < 2 ^ 16 := lt_of_le_of_lt ha h2
  have h16 : c < 16 := (Nat.pow_lt_pow_iff_right (by omega)).mp hlt
  have hgt : 2 ^ 15 < 2 ^ (c + 1) := lt_of_le_of_lt h1 hb
  have h15 : 15 < c + 1 := (Nat.pow_lt_pow_iff_right (by omega)).mp hgt
  omega

/-- The codec built on the handler alphabet uses 15-bit symbols. -/
theorem chunk_bits_handler : chunk_bits_of handler_alphabet.length = 15 := by
  refine chunk_bits_of_eq_15 _ ?_ ?_
  · have := handler_alphabet_length_lb; norm_num at this ⊢; omega
  · have := handler_alphabet_length_ub; norm_num at this ⊢; omega

/-- The codec built on the utils alphabet also uses 15-bit symbols. -/
theorem chunk_bits_utils : chunk_bits_of utils_alphabet.length = 15 := by
  refine chunk_bits_of_eq_15 _ ?_ ?_
  · have := utils_alphabet_length_lb; norm_num at this ⊢; omega
  · have := utils_alphabet_length_ub; norm_num at this ⊢; omega

set_option maxHeartbeats 3000000

/-- utils.py's validity test equals the spec's listed rules restricted by
the extra Azure exclusions. -/
theorem utils_valid_eq_rules (cp : Nat) :
    utils_is_valid_bmp_char cp
      = (!spec_listed_exclusion cp && !utils_azure_exclusion cp) := by
  unfold utils_is_valid_bmp_char
  by_cases h1 : 0xFFFF < cp
  · rw [if_pos h1]
    simp only [spec_listed_exclusion, utils_azure_exclusion]
    split_ifs <;> first | rfl | (exfalso; omega)
  rw [if_neg h1]
  by_cases h2 : cp < 0x20 ∨ cp = 0x7F
  · rw [if_pos h2]
    simp only [spec_listed_exclusion, utils_azure_exclusion]
    split_ifs <;> first | rfl | (exfalso; omega)
  rw [if_neg h2]
  by_cases h3 : 0xD800 ≤ cp ∧ cp ≤ 0xDFFF
  · rw [if_pos h3]
    simp only [spec_listed_exclusion, utils_azure_exclusion]
    split_ifs <;> first | rfl | (exfalso; omega)
  rw [if_neg h3]
  by_cases h4 : 0x0080 ≤ cp ∧ cp ≤ 0x00A0
  · rw [if_pos h4]
    simp only [spec_listed_exclusion, utils_azure_exclusion]
    split_ifs <;> first | rfl | (exfalso; omega)
  rw [if_neg h4]
  by_cases h5 : 0xFE00 ≤ cp ∧ cp ≤ 0xFE0F
  · rw [if_pos h5]
    simp only [spec_listed_exclusion, utils_azure_exclusion]
    split_ifs <;> first | rfl | (exfalso; omega)
  rw [if_neg h5]
  by_cases h6 : 0xFFF0 ≤ cp ∧ cp ≤ 0xFFFC
  · rw [if_pos h6]
    simp only [spec_listed_exclusion, utils_azure_exclusion]
    split_ifs <;> first | rfl | (exfalso; omega)
  rw [if_neg h6]
  by_cases h7 : 0xFD9E ≤ cp ∧ cp ≤ 0xFDFA
  · rw [if_pos h7]
    simp only [spec_listed_exclusion, utils_azure_exclusion]
    split_ifs <;> first | rfl | (exfalso; omega)
  rw [if_neg h7]
  by_cases h8 : 0xFF9C ≤ cp ∧ cp ≤ 0xFFFD
  · rw [if_pos h8]
    simp only [spec_listed_exclusion, utils_azure_exclusion]
    split_ifs <;> first | rfl | (exfalso; omega)
  rw [if_neg h8]
  by_cases h9 : cp = 0x00AD ∨ cp = 0xFEFF ∨ cp = 0xFFA0
  · rw [if_pos h9]
    simp only [spec_listed_exclusion, utils_azure_exclusion]
    split_ifs <;> first | rfl | (exfalso; omega)
  rw [if_neg h9]
  by_cases h10 : cp = 0x5C ∨ cp = 0x2F ∨ cp = 0x3A ∨ cp = 0x2A ∨ cp = 0x3F ∨ cp = 0x22
      ∨ cp = 0x3C ∨ cp = 0x3E ∨ cp = 0x7C
  · rw [if_pos h10]
    simp only [spec_listed_exclusion, utils_azure_exclusion]
    split_ifs <;> first | rfl | (exfalso; omega)
  rw [if_neg h10]
  by_cases h11 : cp = 0xFFFE ∨ cp = 0xFFFF
  · rw [if_pos h11]
    simp only [spec_listed_exclusion, utils_azure_exclusion]
    split_ifs <;> first | rfl | (exfalso; omega)
  rw [if_neg h11]
  by_cases h12 : cp = 0x20 ∨ cp = 0x2E
  · rw [if_pos h12]
    simp only [spec_listed_exclusion, utils_azure_exclusion]
    split_ifs <;> first | rfl | (exfalso; omega)
  rw [if_neg h12]
  simp only [spec_listed_exclusion, utils_azure_exclusion]
  split_ifs <;> first | rfl | (exfalso; omega)

set_option maxHeartbeats 400000

theorem val_from_cons (w a v : Nat) (l : List Nat) :
    val_from w a (v :: l) = val_from w (a * 2 ^ w + v) l := rfl

/-- Pushing one `w`-bit value under a modulus one `w`-width larger. -/
theorem push_mod (a v c w : Nat) (hv : v < 2 ^ w) :
    (a * 2 ^ w + v) % (2 ^ c * 2 ^ w) = a % 2 ^ c * 2 ^ w + v := by
  have hrw : a * 2 ^ w + v = a % 2 ^ c * 2 ^ w + v + 2 ^ c * 2 ^ w * (a / 2 ^ c) := by
    have := Nat.div_add_mod a (2 ^ c)
    nlinarith [this]
  rw [hrw, Nat.add_mul_mod_self_left]
  apply Nat.mod_eq_of_lt
  have h1 : a % 2 ^ c + 1 ≤ 2 ^ c := Nat.mod_lt a (Nat.two_pow_pos c)
  calc a % 2 ^ c * 2 ^ w + v < a % 2 ^ c * 2 ^ w + 2 ^ w := by omega
  _ = (a % 2 ^ c + 1) * 2 ^ w := by ring
  _ ≤ 2 ^ c * 2 ^ w := Nat.mul_le_mul_right _ h1

/-- Extracting a bit window that lies below `L` commutes with truncation to
the low `L` bits. -/
theorem mod_pow_div_mod (x L pos win : Nat) (h : pos + win ≤ L) :
    x % 2 ^ L / 2 ^ pos % 2 ^ win = x / 2 ^ pos % 2 ^ win := by
  have hL : 2 ^ L = 2 ^ pos * 2 ^ (L - pos) := by
    rw [← pow_add]; congr 1; omega
  rw [hL, Nat.mod_mul_right_div_self,
    Nat.mod_mod_of_dvd _ (pow_dvd_pow 2 (by omega))]

/-- The accumulator sits entirely above the pushed bits. -/
theorem val_from_div (w : Nat) :
    ∀ (l : List Nat) (a : Nat), (∀ v ∈ l, v < 2 ^ w) →
      val_from w a l / 2 ^ (w * l.length) = a := by
  intro l
  induction l with
  | nil => intro a _; simp [val_from]
  | cons v rest ih =>
    intro a hv
    rw [val_from_cons]
    have hlen : w * (v :: rest).length = w * rest.length + w := by
      simp [List.length_cons]; ring
    rw [hlen, pow_add, ← Nat.div_div_eq_div_mul,
      ih _ (fun x hx => hv x (List.mem_cons_of_mem _ hx))]
    have hsw : a * 2 ^ w + v = v + 2 ^ w * a := by ring
    rw [hsw, Nat.add_mul_div_left _ _ (Nat.two_pow_pos w),
      Nat.div_eq_of_lt (hv v (List.mem_cons_self v rest)), zero_add]

/-- Truncating the accumulator commutes with pushing values. -/
theorem val_from_mod (w : Nat) :
    ∀ (l : List Nat) (a c : Nat), (∀ v ∈ l, v < 2 ^ w) →
      val_from w a l % 2 ^ (c + w * l.length) = val_from w (a % 2 ^ c) l := by
  intro l
  induction l with
  | nil => intro a c _; simp [val_from]
  | cons v rest ih =>
    intro a c hv
    rw [val_from_cons, val_from_cons]
    have hlen : c + w * (v :: rest).length = c + w + w * rest.length := by
      simp [List.length_cons]; ring
    rw [hlen,
      ih _ (c + w) (fun x hx => hv x (List.mem_cons_of_mem _ hx))]
    congr 1
    have := push_mod a v c w (hv v (List.mem_cons_self v rest))
    rw [← pow_add] at this
    exact this

/-- The drain loop emits the `bits / outw` full symbols from the top and
leaves `bits % outw` buffered bits, given enough fuel. -/
theorem drain_loop_spec (outw buf : Nat) (houtw : 0 < outw) :
    ∀ (fuel bits : Nat), bits ≤ fuel →
      drain_loop outw buf fuel bits
        = ((List.range (bits / outw)).map
            (fun j => buf / 2 ^ (bits - (j + 1) * outw) % 2 ^ outw),
          bits % outw) := by
  intro fuel
  induction fuel with
  | zero =>
    intro bits hb
    have : bits = 0 := by omega
    subst this
    simp [drain_loop, Nat.zero_div, Nat.zero_mod]
  | succ n ih =>
    intro bits hb
    simp only [drain_loop]
    by_cases h : outw ≤ bits
    · rw [if_pos h]
      have hrec := ih (bits - outw) (by omega)
      rw [hrec]
      have hdiv : bits / outw = (bits - outw) / outw + 1 := Nat.div_eq_sub_div houtw h
      have hmod : bits % outw = (bits - outw) % outw := Nat.mod_eq_sub_mod h
      rw [hdiv, hmod]
      congr 1
      rw [List.range_succ_eq_map, List.map_cons, List.map_map]
      congr 1
      · norm_num
      · apply List.map_congr_left
        intro j _
        simp only [Function.comp_apply, Nat.succ_eq_add_one]
        congr 2
        have : (j + 1 + 1) * outw = outw + (j + 1) * outw := by ring
        rw [this, ← Nat.sub_sub]
    · rw [if_neg h]
      have hlt : bits < outw := by omega
      rw [Nat.div_eq_of_lt hlt, Nat.mod_eq_of_lt hlt]
      simp

/-- Splitting the closed-form symbol stream after its first `K` full
symbols. -/
theorem stream_syms_split (outw N K T' : Nat) (houtw : 0 < outw) :
    stream_syms outw N (K * outw + T')
      = ((List.range K).map
          (fun j => N / 2 ^ (K * outw + T' - (j + 1) * outw) % 2 ^ outw))
        ++ stream_syms outw (N % 2 ^ T') T' := by
  unfold stream_syms
  have hdiv : (K * outw + T') / outw = K + T' / outw := by
    rw [Nat.add_comm, Nat.add_mul_div_right _ _ houtw, Nat.add_comm]
  have hmod : (K * outw + T') % outw = T' % outw := by
    rw [Nat.add_comm, Nat.add_mul_mod_self_right]
  rw [hdiv, hmod, List.range_add, List.map_append, List.map_map, List.append_assoc]
  congr 1
  congr 1
  · apply List.map_congr_left
    intro j hj
    rw [List.mem_range] at hj
    simp only [Function.comp_apply]
    have harith : K * outw + T' - (K + j + 1) * outw = T' - (j + 1) * outw := by
      have : (K + j + 1) * outw = K * outw + (j + 1) * outw := by ring
      rw [this, Nat.add_sub_add_left]
    rw [harith]
    have hwin : T' - (j + 1) * outw + outw ≤ T' := by
      have hj1 : (j + 1) * outw ≤ T' := by
        calc (j + 1) * outw ≤ T' / outw * outw := Nat.mul_le_mul_right _ (by omega)
        _ ≤ T' := Nat.div_mul_le_self T' outw
      have : (j + 1) * outw = j * outw + outw := by ring
      omega
    rw [mod_pow_div_mod _ _ _ _ hwin]
  · by_cases hz : T' % outw = 0
    · simp [hz]
    · rw [if_neg hz, if_neg hz,
        Nat.mod_mod_of_dvd _ (pow_dvd_pow 2 (Nat.mod_le T' outw))]

/-- The streaming repacker, started on a partially filled accumulator,
computes the closed-form symbol stream of its pending bits followed by the
new input values. -/
theorem repack_core_eq (inw outw : Nat) (houtw : 0 < outw) :
    ∀ (vals : List Nat) (buf bits : Nat), bits < outw →
      (∀ v ∈ vals, v < 2 ^ inw) →
      repack_core inw outw vals buf bits
        = stream_syms outw (val_from inw (buf % 2 ^ bits) vals)
            (bits + inw * vals.length) := by
  intro vals
  induction vals with
  | nil =>
    intro buf bits hbits _
    simp only [repack_core, val_from, List.foldl_nil, List.length_nil, Nat.mul_zero,
      Nat.add_zero, stream_syms]
    rw [Nat.div_eq_of_lt hbits, Nat.mod_eq_of_lt hbits]
    by_cases h : bits = 0
    · subst h; simp
    · rw [if_pos (by omega), if_neg h]
      simp [Nat.mod_mod_of_dvd _ dvd_rfl]
  | cons v rest ih =>
    intro buf bits hbits hv
    have hvrest : ∀ x ∈ rest, x < 2 ^ inw := fun x hx => hv x (List.mem_cons_of_mem _ hx)
    have hvv : v < 2 ^ inw := hv v (List.mem_cons_self v rest)
    simp only [repack_core]
    rw [drain_loop_spec outw _ houtw (bits + inw) (bits + inw) le_rfl]
    set buf' := buf * 2 ^ inw + v with hbuf'
    set L := bits + inw with hLdef
    set K := L / outw with hK
    set b2 := L % outw with hb2
    have hb2lt : b2 < outw := Nat.mod_lt _ houtw
    rw [ih buf' b2 hb2lt hvrest]
    -- the value pushed so far, truncated to the logical L bits
    have ha1 : buf' % 2 ^ L = buf % 2 ^ bits * 2 ^ inw + v := by
      rw [hbuf', hLdef, pow_add]
      exact push_mod buf v bits inw hvv
    set N := val_from inw (buf % 2 ^ bits) (v :: rest) with hN
    have hNa : N = val_from inw (buf' % 2 ^ L) rest := by
      rw [hN, val_from_cons, ha1]
    set T' := b2 + inw * rest.length with hT'
    have hLKb : L = K * outw + b2 := by
      rw [hK, hb2]
      rw [Nat.mul_comm]
      exact (Nat.div_add_mod L outw).symm
    have hT : bits + inw * (v :: rest).length = K * outw + T' := by
      simp only [List.length_cons]
      rw [hT']
      have : bits + inw * (rest.length + 1) = L + inw * rest.length := by
        rw [hLdef]; ring
      omega
    rw [hT, stream_syms_split outw N K T' houtw]
    -- identify the tail stream
    have htail : N % 2 ^ T' = val_from inw (buf' % 2 ^ b2) rest := by
      rw [hNa, hT', val_from_mod inw rest _ b2 hvrest]
      congr 1
      rw [Nat.mod_mod_of_dvd _ (pow_dvd_pow 2 (by rw [hLKb]; omega))]
    rw [htail]
    congr 1
    -- identify the freshly drained symbols
    apply List.map_congr_left
    intro j hj
    rw [List.mem_range] at hj
    have hjL : (j + 1) * outw ≤ L := by
      calc (j + 1) * outw ≤ K * outw := Nat.mul_le_mul_right _ (by omega)
      _ ≤ L := by omega
    have harith : K * outw + T' - (j + 1) * outw = L - (j + 1) * outw + inw * rest.length := by
      have hsum : K * outw + T' = L + inw * rest.length := by omega
      rw [hsum, Nat.sub_add_comm hjL]
    rw [harith]
    have hsplit : (2 : Nat) ^ (L - (j + 1) * outw + inw * rest.length)
        = 2 ^ (inw * rest.length) * 2 ^ (L - (j + 1) * outw) := by
      rw [← pow_add]; congr 1; omega
    rw [hsplit, ← Nat.div_div_eq_div_mul, hNa, val_from_div inw rest _ hvrest]
    have hwin : L - (j + 1) * outw + outw ≤ L := by
      have : (j + 1) * outw = j * outw + outw := by ring
      omega
    rw [mod_pow_div_mod buf' L _ _ hwin]

/-- Theorem: `repack` computes the closed-form symbol stream of the input values. -/
theorem repack_eq (inw outw : Nat) (houtw : 0 < outw) (vals : List Nat)
    (hv : ∀ v ∈ vals, v < 2 ^ inw) :
    repack inw outw vals = stream_syms outw (val_from inw 0 vals) (inw * vals.length) := by
  unfold repack
  rw [repack_core_eq inw outw houtw vals 0 0 houtw hv]
  simp

/-- Every value placed in the output stream by the drain loop is reduced
`% 2 ^ outw`. -/
theorem drain_loop_mem_lt (outw buf : Nat) (houtw : 0 < outw) :
    ∀ (fuel bits : Nat), ∀ x ∈ (drain_loop outw buf fuel bits).1, x < 2 ^ outw := by
  intro fuel
  induction fuel with
  | zero => intro bits x hx; simp [drain_loop] at hx
  | succ n ih =>
    intro bits x hx
    simp only [drain_loop] at hx
    by_cases h : outw ≤ bits
    · rw [if_pos h] at hx
      rcases List.mem_cons.mp hx with rfl | hmem
      · exact Nat.mod_lt _ (Nat.two_pow_pos outw)
      · exact ih _ x hmem
    · rw [if_neg h] at hx
      simp at hx

/-- Every symbol emitted by the streaming repacker is below `2 ^ outw`. -/
theorem repack_core_lt (inw outw : Nat) (houtw : 0 < outw) :
    ∀ (vals : List Nat) (buf bits : Nat), bits < outw →
      ∀ x ∈ repack_core inw outw vals buf bits, x < 2 ^ outw := by
  intro vals
  induction vals with
  | nil =>
    intro buf bits hbits x hx
    simp only [repack_core] at hx
    by_cases h : 0 < bits
    · rw [if_pos h] at hx
      rcases List.mem_singleton.mp hx with rfl
      calc buf % 2 ^ bits < 2 ^ bits := Nat.mod_lt _ (Nat.two_pow_pos bits)
      _ ≤ 2 ^ outw := Nat.pow_le_pow_right (by omega) (by omega)
    · rw [if_neg h] at hx; simp at hx
  | cons v rest ih =>
    intro buf bits hbits x hx
    simp only [repack_core] at hx
    rcases List.mem_append.mp hx with hmem | hmem
    · exact drain_loop_mem_lt outw _ houtw _ _ x hmem
    · have hb2 : (drain_loop outw (buf * 2 ^ inw + v) (bits + inw) (bits + inw)).2 < outw := by
        rw [drain_loop_spec outw _ houtw _ _ le_rfl]
        exact Nat.mod_lt _ houtw
      exact ih _ _ hb2 x hmem

theorem repack_lt (inw outw : Nat) (houtw : 0 < outw) (vals : List Nat) :
    ∀ x ∈ repack inw outw vals, x < 2 ^ outw :=
  repack_core_lt inw outw houtw vals 0 0 houtw

/-- The character-lookup loop fails exactly when some character fails to
look up. -/
theorem chars_to_vals_eq_none_iff (lookup : Nat → Option Nat) :
    ∀ chars : List Nat,
      chars_to_vals lookup chars = none ↔ ∃ c ∈ chars, lookup c = none := by
  intro chars
  induction chars with
  | nil => simp [chars_to_vals]
  | cons c rest ih =>
    simp only [chars_to_vals]
    cases h : lookup c with
    | none => simp [h]
    | some v =>
      simp only [h, List.mem_cons]
      constructor
      · intro hmap
        rcases Option.map_eq_none'.mp hmap with hnone
        exact (ih.mp hnone).imp fun x hx => ⟨Or.inr hx.1, hx.2⟩
      · rintro ⟨x, hx1 | hx2, hx3⟩
        · rw [← hx1] at h; rw [h] at hx3; cases hx3
        · rw [Option.map_eq_none']
          exact ih.mpr ⟨x, hx2, hx3⟩

/-- The reverse map misses a character exactly when it is not among the
first `2 ^ chunk_bits` alphabet entries. -/
theorem char_to_value_eq_none_iff (b : Nat) (alph : List Nat) (ch : Nat) :
    char_to_value b alph ch = none ↔ ch ∉ alph.take (2 ^ b) := by
  unfold char_to_value
  rw [List.findIdx?_eq_none_iff]
  constructor
  · intro h hmem
    have := h ch hmem
    simp at this
  · intro h x hx
    simp only [decide_eq_false_iff_not]
    intro hxc
    exact h (hxc ▸ hx)

/-- The ordinals assigned by the chunking comprehension are `0, 1, 2, …` in
order, hence strictly increasing. -/
theorem split_chunks_pairwise_lt (s : List Nat) (cs : Nat) :
    (split_chunks s cs).Pairwise (fun a b => a.1 < b.1) := by
  unfold split_chunks
  rw [List.pairwise_map]
  exact List.pairwise_lt_range _

/-- A stable sort by ordinal together with duplicate-free ordinals yields a
strictly increasing ordinal sequence. -/
theorem pairwise_lt_of_le_of_nodup (l : List (Nat × List Nat))
    (hle : l.Pairwise (fun a b => a.1 ≤ b.1))
    (hnd : (l.map Prod.fst).Nodup) :
    l.Pairwise (fun a b => a.1 < b.1) := by
  have hne : l.Pairwise (fun a b => a.1 ≠ b.1) := List.pairwise_map.mp hnd
  exact (hle.and hne).imp fun h => lt_of_le_of_ne h.1 h.2

/-- Sorting any permutation of a strictly-ordinal-increasing list recovers
that list. -/
theorem sort_by_ordinal_of_perm (l target : List (Nat × List Nat))
    (hp : l.Perm target)
    (ht : target.Pairwise (fun a b => a.1 < b.1)) :
    sort_by_ordinal l = target := by
  haveI : IsTotal (Nat × List Nat) (fun a b => a.1 ≤ b.1) :=
    ⟨fun a b => Nat.le_total a.1 b.1⟩
  haveI : IsTrans (Nat × List Nat) (fun a b => a.1 ≤ b.1) :=
    ⟨fun _ _ _ h1 h2 => le_trans h1 h2⟩
  haveI : IsAntisymm (Nat × List Nat) (fun a b => a.1 < b.1) :=
    ⟨fun _ _ h1 h2 => absurd h2 (lt_asymm h1)⟩
  have hsortperm : (sort_by_ordinal l).Perm target :=
    (List.perm_insertionSort _ l).trans hp
  have htnd : (target.map Prod.fst).Nodup :=
    List.pairwise_map.mpr (ht.imp fun h => Nat.ne_of_lt h)
  have hnd : ((sort_by_ordinal l).map Prod.fst).Nodup :=
    ((hsortperm.map Prod.fst).nodup_iff).mpr htnd
  have hsorted_lt : (sort_by_ordinal l).Pairwise (fun a b => a.1 < b.1) :=
    pairwise_lt_of_le_of_nodup _ (List.sorted_insertionSort _ l) hnd
  exact List.eq_of_perm_of_sorted hsortperm hsorted_lt ht

/-- Concatenating the chunk texts of the chunking comprehension recovers
the chunked string. -/
theorem chunks_flatten (cs : Nat) (hcs : 0 < cs) :
    ∀ (len : Nat) (s : List Nat), s.length = len →
      ((List.range ((s.length + cs - 1) / cs)).map
        (fun i => (s.drop (i * cs)).take cs)).flatten = s := by
  intro len
  induction len using Nat.strong_induction_on with
  | _ len ih =>
    intro s hlen
    by_cases hz : s.length = 0
    · rw [List.length_eq_zero] at hz
      subst hz
      simp only [List.length_nil, Nat.zero_add]
      rw [Nat.div_eq_of_lt (show cs - 1 < cs by omega)]
      simp
    · have h1 : 1 ≤ s.length := by omega
      have hn : (s.length + cs - 1) / cs = (s.length - 1) / cs + 1 := by
        have : s.length + cs - 1 = (s.length - 1) + cs := by omega
        rw [this, Nat.add_div_right _ hcs]
      rw [hn, List.range_succ_eq_map, List.map_cons, List.map_map, List.flatten_cons,
        Nat.zero_mul, List.drop_zero]
      have hdroplen : (s.drop cs).length = s.length - cs := List.length_drop cs s
      have hn2 : (s.length - 1) / cs = ((s.drop cs).length + cs - 1) / cs := by
        rw [hdroplen]
        by_cases hc : s.length ≤ cs
        · rw [Nat.div_eq_of_lt (by omega), Nat.div_eq_of_lt (by omega)]
        · congr 1
          omega
      have hmap : (List.range ((s.length - 1) / cs)).map
            ((fun i => (s.drop (i * cs)).take cs) ∘ Nat.succ)
          = (List.range (((s.drop cs).length + cs - 1) / cs)).map
            (fun i => ((s.drop cs).drop (i * cs)).take cs) := by
        rw [← hn2]
        apply List.map_congr_left
        intro i _
        simp only [Function.comp_apply]
        rw [List.drop_drop]
        congr 2
        have : Nat.succ i = i + 1 := rfl
        rw [this]
        ring
      have hltlen : (s.drop cs).length < len := by
        rw [hdroplen]; omega
      rw [hmap, ih (s.drop cs).length hltlen (s.drop cs) rfl,
        List.take_append_drop]

/-- Reassembling any permutation of the chunking of `s` recovers `s`. -/
theorem reassemble_perm_split (s : List Nat) (cs : Nat) (hcs : 0 < cs)
    (perm : List (Nat × List Nat)) (hp : perm.Perm (split_chunks s cs)) :
    reassemble perm = s := by
  unfold reassemble
  rw [sort_by_ordinal_of_perm perm _ hp (split_chunks_pairwise_lt s cs)]
  unfold split_chunks
  rw [List.map_map]
  exact chunks_flatten cs hcs s.length s rfl

/-- Reassembly of a sub-collection of the chunks (lost chunks removed)
succeeds and returns the concatenation of whatever remains. -/
theorem reassemble_sublist_split (s : List Nat) (cs : Nat)
    (sub : List (Nat × List Nat)) (hsub : sub.Sublist (split_chunks s cs)) :
    reassemble sub = (sub.map Prod.snd).flatten := by
  unfold reassemble
  have hlt : sub.Pairwise (fun a b => a.1 < b.1) :=
    (split_chunks_pairwise_lt s cs).sublist hsub
  rw [sort_by_ordinal_of_perm sub sub (List.Perm.refl sub) hlt]

/-- The fuelled digit extraction produces base-10 digits whose value is the
original number, whenever the fuel covers the number of digits. -/
theorem decimal_digits_rev_spec :
    ∀ (fuel n : Nat), n < 10 ^ fuel →
      (∀ d ∈ decimal_digits_rev fuel n, d < 10)
        ∧ Nat.ofDigits 10 (decimal_digits_rev fuel n) = n := by
  intro fuel
  induction fuel with
  | zero =>
    intro n hn
    have : n = 0 := by simpa using hn
    subst this
    simp [decimal_digits_rev, Nat.ofDigits_nil]
  | succ k ih =>
    intro n hn
    by_cases h0 : n = 0
    · subst h0
      simp [decimal_digits_rev, Nat.ofDigits_nil]
    · have hstep : decimal_digits_rev (k + 1) n
          = n % 10 :: decimal_digits_rev k (n / 10) := by
        simp [decimal_digits_rev, h0]
      have hdiv : n / 10 < 10 ^ k := by
        rw [Nat.div_lt_iff_lt_mul (by omega)]
        calc n < 10 ^ (k + 1) := hn
        _ = 10 ^ k * 10 := by ring
      obtain ⟨hd, hv⟩ := ih (n / 10) hdiv
      rw [hstep]
      constructor
      · intro d hdmem
        rcases List.mem_cons.mp hdmem with rfl | hmem
        · exact Nat.mod_lt _ (by omega)
        · exact hd d hmem
      · rw [Nat.ofDigits_cons, hv]
        omega

/-- Horner evaluation of most-significant-first digits equals
`Nat.ofDigits` of the little-endian digits. -/
theorem foldr_horner_eq_ofDigits :
    ∀ L : List Nat, L.foldr (fun d a => a * 10 + d) 0 = Nat.ofDigits 10 L := by
  intro L
  induction L with
  | nil => simp [Nat.ofDigits_nil]
  | cons d rest ih =>
    rw [List.foldr_cons, ih, Nat.ofDigits_cons]
    push_cast
    ring

theorem decimal_repr_all_digits (n : Nat) :
    ∀ c ∈ decimal_repr n, 0x30 ≤ c ∧ c ≤ 0x39 := by
  intro c hc
  unfold decimal_repr at hc
  rcases List.mem_map.mp hc with ⟨d, hd, rfl⟩
  rw [List.mem_reverse] at hd
  have hpow : n < 10 ^ (n + 1) :=
    lt_of_lt_of_le (Nat.lt_pow_self (show (1:Nat) < 10 by omega) n)
      (Nat.pow_le_pow_right (by omega) (Nat.le_succ n))
  have := (decimal_digits_rev_spec (n + 1) n hpow).1 d hd
  omega

theorem format03_all_digits (n : Nat) :
    ∀ c ∈ format03 n, 0x30 ≤ c ∧ c ≤ 0x39 := by
  intro c hc
  unfold format03 at hc
  rcases List.mem_append.mp hc with hmem | hmem
  · have := List.eq_of_mem_replicate hmem
    omega
  · exact decimal_repr_all_digits n c hmem

theorem format03_ne_nil (n : Nat) : format03 n ≠ [] := by
  unfold format03
  intro h
  rcases List.append_eq_nil.mp h with ⟨h1, h2⟩
  rw [List.replicate_eq_nil_iff] at h1
  have hlen : (decimal_repr n).length = 0 := by rw [h2]; rfl
  omega

/-- Parsing leading ASCII zeros keeps the accumulator at zero. -/
theorem foldl_replicate_zeros (k : Nat) :
    List.foldl (fun a c => a * 10 + (c - 0x30)) 0 (List.replicate k 0x30) = 0 := by
  induction k with
  | zero => rfl
  | succ m ih => simpa [List.replicate_succ] using ih

/-- Parsing the decimal representation recovers the number. -/
theorem foldl_decimal_repr (n : Nat) :
    List.foldl (fun a c => a * 10 + (c - 0x30)) 0 (decimal_repr n) = n := by
  unfold decimal_repr
  rw [List.foldl_map]
  have hfun : (fun (a d : Nat) => a * 10 + (0x30 + d - 0x30))
      = (fun (a d : Nat) => a * 10 + d) := by
    funext a d
    omega
  rw [hfun, List.foldl_reverse, foldr_horner_eq_ofDigits]
  have hpow : n < 10 ^ (n + 1) :=
    lt_of_lt_of_le (Nat.lt_pow_self (show (1:Nat) < 10 by omega) n)
      (Nat.pow_le_pow_right (by omega) (Nat.le_succ n))
  exact (decimal_digits_rev_spec (n + 1) n hpow).2

/-- Parsing the padded ordinal prefix recovers the ordinal. -/
theorem parse_nat_digits_format03 (n : Nat) :
    parse_nat_digits (format03 n) = some n := by
  unfold parse_nat_digits
  rw [if_pos]
  · congr 1
    conv_lhs => rw [show format03 n
        = List.replicate (3 - (decimal_repr n).length) 0x30 ++ decimal_repr n from rfl]
    rw [List.foldl_append, foldl_replicate_zeros, foldl_decimal_repr]
  · refine ⟨format03_ne_nil n, ?_⟩
    rw [List.all_eq_true]
    intro c hc
    have := format03_all_digits n c hc
    simp only [decide_eq_true_eq]
    omega

/-- Splitting at the first underscore finds the underscore appended after
an underscore-free prefix. -/
theorem split_first_underscore_append :
    ∀ (pre rest : List Nat), (∀ c ∈ pre, c ≠ 0x5F) →
      split_first_underscore (pre ++ 0x5F :: rest) = some (pre, rest) := by
  intro pre
  induction pre with
  | nil => intro rest _; simp [split_first_underscore]
  | cons c pre' ih =>
    intro rest hfree
    have hc : c ≠ 0x5F := hfree c (List.mem_cons_self c pre')
    simp only [List.cons_append, split_first_underscore, if_neg hc, List.append_eq]
    rw [ih rest (fun x hx => hfree x (List.mem_cons_of_mem _ hx))]
    rfl

/-- Parsing a generated chunk filename recovers the ordinal and the raw
chunk text, for every ordinal (also beyond 999) and every chunk text (also
texts containing underscores). -/
theorem parse_chunk_filename_roundtrip (idx : Nat) (chunk : List Nat) :
    parse_chunk_filename (chunk_filename idx chunk) = some (idx, chunk) := by
  unfold parse_chunk_filename chunk_filename
  rw [split_first_underscore_append (format03 idx) chunk
    (fun c hc => by have := format03_all_digits idx c hc; omega)]
  simp only [parse_nat_digits_format03]

/-- Parsing back the generated names of a chunk list is the identity. -/
theorem filterMap_parse_names (l : List (Nat × List Nat)) :
    ((l.map fun q => chunk_filename q.1 q.2).filterMap parse_chunk_filename) = l := by
  rw [List.filterMap_map]
  induction l with
  | nil => rfl
  | cons q rest ih =>
    rw [List.filterMap_cons]
    simp only [Function.comp_apply, parse_chunk_filename_roundtrip]
    rw [ih]

/-- Lemma: `store_segment` followed by the per-part reassembly of
`retrieve_segments` returns the original encoded string. -/
theorem store_retrieve_eq (s : List Nat) (cs : Nat) (hcs : 0 < cs) :
    retrieve_segment_str (store_segment_names s cs) = s := by
  unfold retrieve_segment_str store_segment_names
  rw [filterMap_parse_names]
  exact reassemble_perm_split s cs hcs _ (List.Perm.refl _)

/-- Splitting the alphabet construction after the first 0x140 code points,
so that concrete evaluations only ever force a short prefix of the filter. -/
theorem handler_alphabet_split :
    handler_alphabet
      = (List.range' 0 0x140).filter handler_is_valid_bmp_char
        ++ (List.range' 0x140 0xFEC0).filter handler_is_valid_bmp_char := by
  unfold handler_alphabet
  rw [List.range_eq_range']
  have h := List.range'_append 0 0x140 0xFEC0 1
  norm_num at h
  rw [← h, List.filter_append]

/-- Emitted characters lie in the active alphabet slice. -/
theorem encode_streaming_mem (b : Nat) (alph : List Nat) (hb : 0 < b)
    (hlen : 2 ^ b ≤ alph.length) (data : List Nat) (c : Nat)
    (hc : c ∈ encode_streaming b alph data) : c ∈ alph.take (2 ^ b) := by
  unfold encode_streaming at hc
  rcases List.mem_map.mp hc with ⟨i, hi, rfl⟩
  have hilt : i < 2 ^ b := repack_lt 8 b hb data i hi
  have htake : (alph.take (2 ^ b)).length = 2 ^ b := by
    rw [List.length_take]
    omega
  have hlt : i < (alph.take (2 ^ b)).length := by omega
  rw [List.getD_eq_getElem?_getD, List.getElem?_eq_getElem hlt]
  simp only [Option.getD_some]
  exact List.getElem_mem hlt

set_option maxRecDepth 3000

/-- C1: the claim states that decode of encode returns the input bytes for
every configuration.  The spec-modelled codec emits the partial trailing
symbol low-aligned (spec 4.2, matching `_encode_streaming`), and decode
zero-extends every symbol to `chunk_bits` bits, which shifts the tail of
the bit stream.  Concretely, for the compressed payload `[0x01]` the framed
segment is `[0, 0, 0, 1, 1]` (40 bits, 40 % 15 = 10), the header decodes to
0, and the whole pipeline returns `some []` instead of `some [1]` — the
repository's own round-trip test requires equality. -/
theorem pipeline_roundtrip_fails_low_aligned_tail :
    decode_filenames_to_file (chunk_bits_of handler_alphabet.length) handler_alphabet
        (encode_file_to_filenames (chunk_bits_of handler_alphabet.length)
          handler_alphabet 100000 240 [1])
      = some []
    ∧ ([] : List Nat) ≠ [1] := by
  constructor
  · rw [chunk_bits_handler, handler_alphabet_split]
    decide
  · decide

/-- C2 (counterexample): a valid corpus of 56 zero bytes decodes exactly;
after deleting the chunk of ordinal 3 the sorted ordinals are
`0,1,2,4,…,31` — a gap — yet decode still succeeds (it is not `none` and
raises no `MissingChunk`), returning a silently truncated result. -/
theorem deleted_chunk_decode_succeeds :
    decode_filenames_to_file (chunk_bits_of handler_alphabet.length) handler_alphabet
        (encode_file_to_filenames (chunk_bits_of handler_alphabet.length)
          handler_alphabet 100000 1 (List.replicate 56 0))
      = some (List.replicate 56 0)
    ∧ decode_filenames_to_file (chunk_bits_of handler_alphabet.length) handler_alphabet
        [(1, (((encode_file_to_filenames (chunk_bits_of handler_alphabet.length)
            handler_alphabet 100000 1 (List.replicate 56 0)).headD (0, [])).2).eraseIdx 3)]
      ≠ none
    ∧ decode_filenames_to_file (chunk_bits_of handler_alphabet.length) handler_alphabet
        [(1, (((encode_file_to_filenames (chunk_bits_of handler_alphabet.length)
            handler_alphabet 100000 1 (List.replicate 56 0)).headD (0, [])).2).eraseIdx 3)]
      ≠ some (List.replicate 56 0) := by
  refine ⟨?_, ?_, ?_⟩ <;> rw [chunk_bits_handler, handler_alphabet_split] <;> decide

/-- C2 (amended): reassembly performs no contiguity check on the ordinals:
any sub-collection of the stored chunks — in particular the corpus left
after deleting chunks — is sorted by ordinal and concatenated as-is, a
successful (possibly silently truncated) result rather than a
`MissingChunk` failure. -/
theorem reassemble_no_contiguity_check (s : List Nat) (cs : Nat)
    (sub : List (Nat × List Nat)) (hsub : sub.Sublist (split_chunks s cs)) :
    reassemble sub = (sub.map Prod.snd).flatten :=
  reassemble_sublist_split s cs sub hsub

/-- Witness for the amended C2 at a chunk list with the gap `0, 2`. -/
theorem reassemble_no_contiguity_check_witness :
    reassemble [(0, [1, 2]), (2, [5])] = [1, 2, 5] := by
  rw [reassemble_no_contiguity_check [1, 2, 3, 4, 5] 2 [(0, [1, 2]), (2, [5])] (by decide)]
  rfl

/-- C3 (counterexample): the decode loop does not fail on truncated frames:
fewer than 4 decoded bytes make the segment contribute nothing
(`logger.error` and `continue`), and a declared length exceeding the
available bytes yields just the available bytes (`logger.warning`), with no
`TruncatedFrame` error in either case. -/
theorem unframe_returns_short_data :
    unframe_segment [1, 2, 3] = []
    ∧ unframe_segment [0, 0, 0, 10, 1, 2] = [1, 2] := by
  constructor <;> decide

/-- C3 (amended): the header handling never fails and never invents data:
its result is always a prefix of the decoded remainder (so no zero or
default bytes are substituted), of length `min declared available` (0 when
even the header is missing). -/
theorem unframe_never_fails_never_pads (dec : List Nat) :
    unframe_segment dec <+: dec.drop 4
    ∧ (unframe_segment dec).length
        = if dec.length < 4 then 0
          else min (int_from_bytes_be (dec.take 4)) (dec.length - 4) := by
  unfold unframe_segment
  by_cases h : dec.length < 4
  · rw [if_pos h, if_pos h]
    exact ⟨ List.nil_prefix, rfl⟩
  · rw [if_neg h, if_neg h]
    refine ⟨ List.take_prefix _ _, ?_⟩
    rw [List.length_take, List.length_drop]

/-- C4: encode is fixed-width bit packing — the emitted characters are the
alphabet entries indexed by the successive `chunk_bits`-bit windows of the
input bit stream, with 1 to `chunk_bits - 1` leftover bits emitted as one
final zero-extended partial symbol; with `chunk_bits = 3`, byte `0xFF`
yields exactly the three indices `7, 7, 3`. -/
theorem encode_streaming_packs_fixed_width (b : Nat) (alph : List Nat)
    (data : List Nat) (hb : 0 < b) (hdata : ∀ v ∈ data, v < 2 ^ 8) :
    encode_streaming b alph data
        = (stream_syms b (val_from 8 0 data) (8 * data.length)).map
            (fun i => (alph.take (2 ^ b)).getD i 0)
    ∧ repack 8 3 [0xFF] = [7, 7, 3] := by
  constructor
  · unfold encode_streaming
    rw [repack_eq 8 b hb data hdata]
  · decide

/-- Witness for C4 at `chunk_bits = 3` and input `[0xFF]`. -/
theorem encode_streaming_packs_fixed_width_witness :
    (encode_streaming 3 (List.range 8) [0xFF]
        = (stream_syms 3 (val_from 8 0 [0xFF]) (8 * [0xFF].length)).map
            (fun i => ((List.range 8).take (2 ^ 3)).getD i 0))
    ∧ repack 8 3 [0xFF] = [7, 7, 3] :=
  encode_streaming_packs_fixed_width 3 (List.range 8) [0xFF] (by decide) (by decide)

/-- C5: decode is the inverse fixed-width unpacking — the produced bytes
are the 8-bit windows of the symbol-value bit stream, with fewer than 8
leftover bits emitted as one final zero-extended short byte; decoding the
empty string gives the empty byte sequence and encoding the empty byte
sequence gives the empty string. -/
theorem decode_streaming_unpacks_bits (b : Nat) (alph : List Nat)
    (vals : List Nat) (hvals : ∀ v ∈ vals, v < 2 ^ b) :
    repack b 8 vals = stream_syms 8 (val_from b 0 vals) (b * vals.length)
    ∧ decode_streaming b alph [] = some []
    ∧ encode_streaming b alph [] = [] :=
  ⟨repack_eq b 8 (by omega) vals hvals, rfl, rfl⟩

/-- Witness for C5 at `chunk_bits = 3` and the symbol values `7, 7, 3`. -/
theorem decode_streaming_unpacks_bits_witness :
    (repack 3 8 [7, 7, 3] = stream_syms 8 (val_from 3 0 [7, 7, 3]) (3 * [7, 7, 3].length))
    ∧ decode_streaming 3 (List.range 8) [] = some []
    ∧ encode_streaming 3 (List.range 8) [] = [] :=
  decode_streaming_unpacks_bits 3 (List.range 8) [7, 7, 3] (by decide)

/-- C6: bit-pack decode fails exactly when some input character is missing
from the reverse map, i.e. not among the first `2 ^ chunk_bits` alphabet
entries; otherwise it returns a byte sequence. -/
theorem decode_invalid_symbol_iff (b : Nat) (alph : List Nat) (chars : List Nat) :
    decode_streaming b alph chars = none
      ↔ ∃ c ∈ chars, c ∉ alph.take (2 ^ b) := by
  unfold decode_streaming
  rw [Option.map_eq_none', chars_to_vals_eq_none_iff]
  constructor
  · rintro ⟨c, hc1, hc2⟩
    exact ⟨c, hc1, (char_to_value_eq_none_iff b alph c).mp hc2⟩
  · rintro ⟨c, hc1, hc2⟩
    exact ⟨c, hc1, (char_to_value_eq_none_iff b alph c).mpr hc2⟩

/-- C7 (counterexample): code point 0x80 is not excluded by any of the
rules listed in the claim, and handler.py's builder keeps it, but utils.py's
builder (used by `InFileNameEncoder`) drops it — so the repository's two
independent constructions disagree with each other and the utils one
disagrees with the listed rules. -/
theorem alphabet_builders_disagree_with_rules :
    spec_listed_exclusion 0x80 = false
    ∧ handler_is_valid_bmp_char 0x80 = true
    ∧ utils_is_valid_bmp_char 0x80 = false
    ∧ (0x80 : Nat) ∈ handler_alphabet
    ∧ (0x80 : Nat) ∉ utils_alphabet := by
  refine ⟨by decide, by decide, by decide, ?_, ?_⟩
  · exact List.mem_filter.mpr ⟨List.mem_range.mpr (by norm_num), by decide⟩
  · intro h
    have h1 := (List.mem_filter.mp h).2
    have h2 : utils_is_valid_bmp_char 0x80 = false := by decide
    rw [h2] at h1
    cases h1

/-- C7 (amended): handler.py's builder returns, in increasing code-point
order, exactly the code points kept by the listed rules, and is non-empty;
utils.py's builder additionally applies the Azure exclusions, so the two
builders produce different alphabets. -/
theorem alphabet_builder_characterization :
    handler_alphabet
        = (List.range 0x10000).filter (fun cp => !spec_listed_exclusion cp)
    ∧ utils_alphabet
        = (List.range 0x10000).filter
            (fun cp => !spec_listed_exclusion cp && !utils_azure_exclusion cp)
    ∧ handler_alphabet.Pairwise (· < ·)
    ∧ utils_alphabet.Pairwise (· < ·)
    ∧ handler_alphabet ≠ []
    ∧ utils_alphabet ≠ []
    ∧ utils_alphabet ≠ handler_alphabet := by
  have hmemh : (0x80 : Nat) ∈ handler_alphabet :=
    List.mem_filter.mpr ⟨List.mem_range.mpr (by norm_num), by decide⟩
  refine ⟨?_, ?_, ?_, ?_, ?_, ?_, ?_⟩
  · exact List.filter_congr (fun cp _ => handler_valid_eq_rules cp)
  · exact List.filter_congr (fun cp _ => utils_valid_eq_rules cp)
  · exact List.Pairwise.sublist (List.filter_sublist _) (List.pairwise_lt_range _)
  · exact List.Pairwise.sublist (List.filter_sublist _) (List.pairwise_lt_range _)
  · exact List.ne_nil_of_mem
      (List.mem_filter.mpr ⟨List.mem_range.mpr (by norm_num : (0x21:Nat) < 0x10000), by decide⟩)
  · exact List.ne_nil_of_mem
      (List.mem_filter.mpr ⟨List.mem_range.mpr (by norm_num : (0x21:Nat) < 0x10000), by decide⟩)
  · intro heq
    have h1 : (0x80 : Nat) ∈ utils_alphabet := heq ▸ hmemh
    have h2 := (List.mem_filter.mp h1).2
    have h3 : utils_is_valid_bmp_char 0x80 = false := by decide
    rw [h3] at h2
    cases h2

/-- Arithmetic helper over plain variables (keeps the big alphabet terms
opaque to the arithmetic tactics). -/
theorem le_chunk_bits_of_pow_le (A cb b2 : Nat) (h2 : A < 2 ^ (cb + 1))
    (hb2 : 2 ^ b2 ≤ A) : b2 ≤ cb := by
  have hx : 2 ^ b2 < 2 ^ (cb + 1) := lt_of_le_of_lt hb2 h2
  have := (Nat.pow_lt_pow_iff_right (show 1 < 2 by omega)).mp hx
  omega

/-- C8: the codec's `chunk_bits` is the largest `b` with
`2 ^ b ≤ alphabet length` (shown for both the encoder.py/utils alphabet and
the handler/legacy alphabet), and every character emitted by the streaming
encoder lies among the first `2 ^ chunk_bits` alphabet entries. -/
theorem chunk_bits_largest_and_emission_subset :
    (2 ^ chunk_bits_of utils_alphabet.length ≤ utils_alphabet.length
      ∧ ∀ b2, 2 ^ b2 ≤ utils_alphabet.length
          → b2 ≤ chunk_bits_of utils_alphabet.length)
    ∧ (2 ^ chunk_bits_of handler_alphabet.length ≤ handler_alphabet.length
      ∧ ∀ b2, 2 ^ b2 ≤ handler_alphabet.length
          → b2 ≤ chunk_bits_of handler_alphabet.length)
    ∧ ∀ (data : List Nat) (c : Nat),
        c ∈ encode_streaming (chunk_bits_of handler_alphabet.length) handler_alphabet data
        → c ∈ handler_alphabet.take (2 ^ chunk_bits_of handler_alphabet.length) := by
  have hu : 0 < utils_alphabet.length := by
    have := utils_alphabet_length_lb; omega
  have hh : 0 < handler_alphabet.length := by
    have := handler_alphabet_length_lb; omega
  obtain ⟨hu1, hu2⟩ := chunk_bits_of_bounds _ hu
  obtain ⟨hh1, hh2⟩ := chunk_bits_of_bounds _ hh
  refine ⟨⟨hu1, fun b2 hb2 => ?_⟩, ⟨hh1, fun b2 hb2 => ?_⟩, fun data c hc => ?_⟩
  · exact le_chunk_bits_of_pow_le utils_alphabet.length
      (chunk_bits_of utils_alphabet.length) b2 hu2 hb2
  · exact le_chunk_bits_of_pow_le handler_alphabet.length
      (chunk_bits_of handler_alphabet.length) b2 hh2 hb2
  · refine encode_streaming_mem _ _ ?_ hh1 data c hc
    rw [chunk_bits_handler]
    omega

/-- Witness for C8: the maximality applied at `b2 = 0`, and the emission
membership applied to the single character encoded from `[0xFF]`. -/
theorem chunk_bits_largest_and_emission_subset_witness :
    0 ≤ chunk_bits_of utils_alphabet.length
    ∧ (handler_alphabet.take (2 ^ chunk_bits_of handler_alphabet.length)).getD 255 0
        ∈ handler_alphabet.take (2 ^ chunk_bits_of handler_alphabet.length) := by
  constructor
  · exact chunk_bits_largest_and_emission_subset.1.2 0
      (le_trans (by norm_num) utils_alphabet_length_lb)
  · apply chunk_bits_largest_and_emission_subset.2.2 [0xFF]
    rw [chunk_bits_handler, handler_alphabet_split]
    decide

/-- C9: the chunking comprehension assigns ordinals `0, 1, 2, …` to
consecutive substrings of length at most `chunk_size`, and reassembling
any permutation of those chunks (sorted strictly by ordinal, concatenated)
returns the original encoded string. -/
theorem split_reassemble_roundtrip (s : List Nat) (cs : Nat) (hcs : 0 < cs)
    (perm : List (Nat × List Nat)) (hp : perm.Perm (split_chunks s cs)) :
    ((split_chunks s cs).map Prod.fst = List.range ((s.length + cs - 1) / cs)
      ∧ ∀ p ∈ split_chunks s cs, p.2.length ≤ cs)
    ∧ reassemble perm = s := by
  refine ⟨⟨?_, ?_⟩, reassemble_perm_split s cs hcs perm hp⟩
  · unfold split_chunks
    rw [List.map_map]
    have hid : (Prod.fst ∘ fun i => (i, (s.drop (i * cs)).take cs)) = id := rfl
    rw [hid, List.map_id]
  · intro p hp2
    unfold split_chunks at hp2
    rcases List.mem_map.mp hp2 with ⟨i, _, rfl⟩
    exact List.length_take_le cs _

/-- Witness for C9: a two-chunk split supplied in reversed order. -/
theorem split_reassemble_roundtrip_witness :
    reassemble [(1, [3]), (0, [1, 2])] = [1, 2, 3] :=
  (split_reassemble_roundtrip [1, 2, 3] 2 (by decide) [(1, [3]), (0, [1, 2])] (by decide)).2

/-- C10: the 3-digit zero padding in chunk filenames is a minimum width,
not a bound: names parse back to `(ordinal, chunk)` for every ordinal
(beyond 999 the prefix simply grows) and every chunk text (even containing
underscores), and storing then retrieving any segment — in particular one
with more than 1000 chunks — returns the original encoded string. -/
theorem large_ordinal_names_roundtrip :
    (∀ (idx : Nat) (chunk : List Nat),
        parse_chunk_filename (chunk_filename idx chunk) = some (idx, chunk))
    ∧ ∀ (s : List Nat) (cs : Nat), 0 < cs →
        retrieve_segment_str (store_segment_names s cs) = s :=
  ⟨parse_chunk_filename_roundtrip, fun s cs hcs => store_retrieve_eq s cs hcs⟩

/-- Witness for C10: ordinal 1000 with an underscore inside the chunk
text, and a stored segment of 1001 single-character chunks. -/
theorem large_ordinal_names_roundtrip_witness :
    parse_chunk_filename (chunk_filename 1000 [7, 0x5F, 8]) = some (1000, [7, 0x5F, 8])
    ∧ retrieve_segment_str (store_segment_names (List.replicate 1001 7) 1)
        = List.replicate 1001 7 :=
  ⟨large_ordinal_names_roundtrip.1 1000 [7, 0x5F, 8],
    large_ordinal_names_roundtrip.2 (List.replicate 1001 7) 1 (by decide)⟩
